import Mathlib

/-!
Verification of the InsightBot news-aggregation pipeline.

This file shallowly embeds the parts of the repository that the verified
properties talk about:

* `scripts/publish.py` (the Merger: concat, schema coercion, URL dedup, date sort)
* `src/insightbot/api/app.py` (the Query Service: `load_articles`,
  `apply_date_filter`, pagination in the `articles` route)
* `scripts/ingest_rss.py` (the RSS extractor: per-entry record building,
  per-source sort/cap, global URL dedup)
* `scripts/preprocess_html.py` (the Block Scorer: candidate enumeration,
  ranking, truncation)
* `scripts/extract_content.py` (the Article Extractor: best-block selection)

Modelling conventions:

* Python strings are Lean `String`s; Python string slicing, `strip()`,
  `lower()` and comparison are re-implemented on `String.data` (`List Char`)
  because the corresponding core-library functions do not reduce in the
  kernel.  Python compares strings lexicographically by code point, which is
  what `listLe` below does.  `lower()` and `strip()` are modelled on the
  ASCII range, which covers every input the properties exercise.
* A pandas DataFrame is a list of rows.  A raw input table (a CSV before
  schema coercion) is a list of columns present plus one value per row per
  column.  pandas' NaN for a value missing in one input of a concat and the
  explicit `df[col] = ""` fill are collapsed to the empty string, which is
  what both end up as in the written CSV (`to_csv` writes NaN as an empty
  field).
* `pandas.sort_values` / Python `sorted(..., reverse=True)` /
  `list.sort(..., reverse=True)` are modelled by the stable insertion sort
  `insSortB` with the "greater or equal" comparator; Python's sorts are
  stable, and `insSortB` is proved stable below.
* `pd.to_datetime` / `dateutil` parsing is modelled by `parseIso`, a faithful
  ISO-8601 parser (date, optional time, optional fractional seconds which are
  truncated, optional `Z` or `±HH:MM` offset) returning seconds since the
  Unix epoch; strings outside that format count as unparsable.
-/

/-- Python-style ASCII whitespace test (matches what `str.strip` and the
regex class `\s` remove for the inputs in scope). -/
def isWs (c : Char) : Bool :=
  c = ' ' || c = '\t' || c = '\n' || c = '\r' || c = '\x0b' || c = '\x0c'

/-- Drop leading whitespace from a character list. -/
def dropWs : List Char → List Char
  | [] => []
  | c :: cs => if isWs c then dropWs cs else c :: cs

/-- Python `str.strip()` on a character list: drop whitespace at both ends. -/
def trimList (l : List Char) : List Char :=
  (dropWs (dropWs l.reverse).reverse)

/-- Python `str.strip()`. -/
def trimStr (s : String) : String := ⟨trimList s.data⟩

/-- ASCII lower-casing of one character (models Python `str.lower` on the
ASCII range). -/
def lowerChar (c : Char) : Char :=
  if 'A' ≤ c ∧ c ≤ 'Z' then Char.ofNat (c.toNat + 32) else c

/-- Python `str.lower()` (ASCII range). -/
def lowerStr (s : String) : String := ⟨s.data.map lowerChar⟩

/-- Python string comparison: lexicographic by code point. -/
def listLe : List Char → List Char → Bool
  | [], _ => true
  | _ :: _, [] => false
  | a :: as, b :: bs =>
    if a.toNat < b.toNat then true
    else if b.toNat < a.toNat then false
    else listLe as bs

/-- Python `s1 <= s2` on strings. -/
def strLe (a b : String) : Bool := listLe a.data b.data

/-- Python slicing `s[:n]` (by code point, like `len`). -/
def strTake (s : String) (n : Nat) : String := ⟨s.data.take n⟩

theorem listLe_cons (x y : Char) (xs ys : List Char) :
    listLe (x :: xs) (y :: ys)
      = (if x.toNat < y.toNat then true
         else if y.toNat < x.toNat then false else listLe xs ys) := rfl

theorem listLe_total (a b : List Char) : listLe a b = true ∨ listLe b a = true := by
  induction a generalizing b with
  | nil => left; rfl
  | cons x xs ih =>
    cases b with
    | nil => right; rfl
    | cons y ys =>
      rw [listLe_cons, listLe_cons]
      by_cases hxy : x.toNat < y.toNat
      · have hyx : ¬ y.toNat < x.toNat := Nat.lt_asymm hxy
        left; rw [if_pos hxy]
      · by_cases hyx : y.toNat < x.toNat
        · right; rw [if_pos hyx]
        · rw [if_neg hxy, if_neg hyx, if_neg hyx, if_neg hxy]
          exact ih ys

theorem listLe_trans {a b c : List Char} (h1 : listLe a b = true)
    (h2 : listLe b c = true) : listLe a c = true := by
  induction a generalizing b c with
  | nil => rfl
  | cons x xs ih =>
    cases b with
    | nil => simp [listLe] at h1
    | cons y ys =>
      cases c with
      | nil => simp [listLe] at h2
      | cons z zs =>
        rw [listLe_cons] at h1 h2 ⊢
        by_cases hxy : x.toNat < y.toNat
        · rw [if_pos hxy] at h1
          by_cases hyz : y.toNat < z.toNat
          · rw [if_pos (Nat.lt_trans hxy hyz)]
          · by_cases hzy : z.toNat < y.toNat
            · rw [if_neg hyz, if_pos hzy] at h2; exact absurd h2 (by simp)
            · have hyz' : y.toNat = z.toNat :=
                Nat.le_antisymm (Nat.le_of_not_lt hzy) (Nat.le_of_not_lt hyz)
              rw [if_pos (hyz' ▸ hxy)]
        · rw [if_neg hxy] at h1
          by_cases hyx : y.toNat < x.toNat
          · rw [if_pos hyx] at h1; exact absurd h1 (by simp)
          · rw [if_neg hyx] at h1
            have hxy' : x.toNat = y.toNat :=
              Nat.le_antisymm (Nat.le_of_not_lt hyx) (Nat.le_of_not_lt hxy)
            by_cases hyz : y.toNat < z.toNat
            · rw [if_pos (hxy' ▸ hyz)]
            · by_cases hzy : z.toNat < y.toNat
              · rw [if_neg hyz, if_pos hzy] at h2; exact absurd h2 (by simp)
              · rw [if_neg hyz, if_neg hzy] at h2
                have hyz' : y.toNat = z.toNat :=
                  Nat.le_antisymm (Nat.le_of_not_lt hzy) (Nat.le_of_not_lt hyz)
                have hxz : ¬ x.toNat < z.toNat := by
                  rw [← hyz', ← hxy']; exact Nat.lt_irrefl _
                have hzx : ¬ z.toNat < x.toNat := by
                  rw [← hyz', ← hxy']; exact Nat.lt_irrefl _
                rw [if_neg hxz, if_neg hzx]
                exact ih h1 h2

/-- Stable insertion of `a` into `l`: place `a` before the first element `b`
with `le a b`.  Models the placement done by Python's stable sorts. -/
def ordIns {α : Type} (le : α → α → Bool) (a : α) : List α → List α
  | [] => [a]
  | b :: l => if le a b then a :: b :: l else b :: ordIns le a l

/-- Stable insertion sort.  With `le x y := key y ≤ key x` this computes
exactly Python's `sorted(..., key=key, reverse=True)`: descending by key and
stable (ties keep scan order). -/
def insSortB {α : Type} (le : α → α → Bool) : List α → List α
  | [] => []
  | a :: l => ordIns le a (insSortB le l)

theorem perm_ordIns {α : Type} (le : α → α → Bool) (a : α) (l : List α) :
    List.Perm (ordIns le a l) (a :: l) := by
  induction l with
  | nil => exact List.Perm.refl _
  | cons b t ih =>
    simp only [ordIns]
    by_cases h : le a b = true
    · simp [h]
    · simp only [h]
      refine List.Perm.trans (List.Perm.cons b ih) ?_
      exact List.Perm.swap a b t

theorem perm_insSortB {α : Type} (le : α → α → Bool) (l : List α) :
    List.Perm (insSortB le l) l := by
  induction l with
  | nil => exact List.Perm.refl _
  | cons a t ih =>
    simp only [insSortB]
    exact List.Perm.trans (perm_ordIns le a (insSortB le t)) (List.Perm.cons a ih)

theorem mem_insSortB {α : Type} (le : α → α → Bool) (l : List α) (x : α) :
    x ∈ insSortB le l ↔ x ∈ l :=
  (perm_insSortB le l).mem_iff

theorem pairwise_ordIns {α : Type} (le : α → α → Bool)
    (htot : ∀ x y, le x y = true ∨ le y x = true)
    (htrans : ∀ x y z, le x y = true → le y z = true → le x z = true)
    (a : α) (l : List α) (hl : l.Pairwise (fun x y => le x y = true)) :
    (ordIns le a l).Pairwise (fun x y => le x y = true) := by
  induction l with
  | nil => simp [ordIns]
  | cons b t ih =>
    simp only [ordIns]
    rcases List.pairwise_cons.mp hl with ⟨hb, ht⟩
    by_cases h : le a b = true
    · simp only [h, if_true]
      refine List.pairwise_cons.mpr ⟨?_, hl⟩
      intro y hy
      rcases List.mem_cons.mp hy with rfl | hy'
      · exact h
      · exact htrans a b y h (hb y hy')
    · simp only [h, if_false]
      refine List.pairwise_cons.mpr ⟨?_, ih ht⟩
      intro y hy
      have hba : le b a = true := by
        rcases htot a b with hab | hba
        · exact absurd hab h
        · exact hba
      rcases List.mem_cons.mp (((perm_ordIns le a t).mem_iff).mp hy) with rfl | hy'
      · exact hba
      · exact hb y hy'

theorem pairwise_insSortB {α : Type} (le : α → α → Bool)
    (htot : ∀ x y, le x y = true ∨ le y x = true)
    (htrans : ∀ x y z, le x y = true → le y z = true → le x z = true)
    (l : List α) :
    (insSortB le l).Pairwise (fun x y => le x y = true) := by
  induction l with
  | nil => simp [insSortB]
  | cons a t ih =>
    exact pairwise_ordIns le htot htrans a (insSortB le t) ih

theorem filter_ordIns_pos {α : Type} (le : α → α → Bool) (p : α → Bool)
    (a : α) (l : List α) (hpa : p a = true)
    (h : ∀ b, p b = true → le a b = true) :
    (ordIns le a l).filter p = a :: l.filter p := by
  induction l with
  | nil => simp [ordIns, hpa]
  | cons b t ih =>
    simp only [ordIns]
    by_cases hab : le a b = true
    · simp [hab, hpa]
    · have hpb : p b = false := by
        cases hb : p b
        · rfl
        · exact absurd (h b hb) hab
      simp [hab, hpb, ih]

theorem filter_ordIns_neg {α : Type} (le : α → α → Bool) (p : α → Bool)
    (a : α) (l : List α) (hpa : p a = false) :
    (ordIns le a l).filter p = l.filter p := by
  induction l with
  | nil => simp [ordIns, hpa]
  | cons b t ih =>
    simp only [ordIns]
    by_cases hab : le a b = true
    · simp [hab, hpa]
    · cases hpb : p b
      · simp [hab, hpb, ih]
      · simp [hab, hpb, ih]

/-- Stability of `insSortB`: if the predicate `p` only distinguishes key
classes inside which `le` always holds, the `p`-elements of the sorted list
appear in their original order. -/
theorem filter_insSortB {α : Type} (le : α → α → Bool) (p : α → Bool)
    (hp : ∀ x y, p x = true → p y = true → le x y = true)
    (l : List α) :
    (insSortB le l).filter p = l.filter p := by
  induction l with
  | nil => rfl
  | cons a t ih =>
    simp only [insSortB]
    cases hpa : p a
    · rw [filter_ordIns_neg le p a _ hpa]
      simp [hpa, ih]
    · rw [filter_ordIns_pos le p a _ hpa (fun b hb => hp a b hpa hb)]
      simp [hpa, ih]

/-- The canonical six columns of an article table
(the `keep_cols` / `REQUIRED_COLS` lists of the repository). -/
inductive Col : Type
  | title | body | language | date | source | url
deriving DecidableEq, Repr

/-- A fully coerced article row: all six canonical columns present.
Corresponds to one row of the canonical CSV. -/
structure Row where
  title : String
  body : String
  language : String
  date : String
  source : String
  url : String
deriving DecidableEq, Repr

/-- Field access by column name. -/
def Row.get (r : Row) : Col → String
  | .title => r.title
  | .body => r.body
  | .language => r.language
  | .date => r.date
  | .source => r.source
  | .url => r.url

/-- A raw input table (one CSV before schema coercion): the list of columns
it actually has, and one value per column per row.  A row's value at a
column not in `cols` is irrelevant (it does not exist in the file). -/
structure RawTable where
  cols : List Col
  rows : List (Col → String)

/-- Schema coercion of one raw row: canonical columns the table lacks are
filled with the empty string.  In `publish.py` this is the combination of
the post-concat `df[col] = ""` fill for fully absent columns and `to_csv`
writing the NaN cells of partially absent columns as empty; in `app.py`'s
`load_articles` it is the per-frame `df[c] = ""` fill. -/
def coerceRow (cols : List Col) (r : Col → String) : Row where
  title := if Col.title ∈ cols then r .title else ""
  body := if Col.body ∈ cols then r .body else ""
  language := if Col.language ∈ cols then r .language else ""
  date := if Col.date ∈ cols then r .date else ""
  source := if Col.source ∈ cols then r .source else ""
  url := if Col.url ∈ cols then r .url else ""

/-- Model of `pd.concat` over the coerced input tables, in order. -/
def concatCoerced (ts : List RawTable) : List Row :=
  ts.flatMap fun t => t.rows.map (coerceRow t.cols)

/-- Model of `drop_duplicates(subset=["url"])`: keep the first row seen for each
exact `url` string value, preserving order. -/
def dedupByUrlAux (seen : List String) : List Row → List Row
  | [] => []
  | r :: rs =>
    if r.url ∈ seen then dedupByUrlAux seen rs
    else r :: dedupByUrlAux (r.url :: seen) rs

def dedupByUrl (l : List Row) : List Row := dedupByUrlAux [] l

/-- Model of `drop_duplicates()` with no subset: keep the first occurrence of each
full six-column row value, preserving order. -/
def dedupFullAux (seen : List Row) : List Row → List Row
  | [] => []
  | r :: rs =>
    if r ∈ seen then dedupFullAux seen rs
    else r :: dedupFullAux (r :: seen) rs

def dedupFull (l : List Row) : List Row := dedupFullAux [] l

/-- Comparator for `sort_values("date", ascending=False)` on string dates:
descending, i.e. an element goes first when its date is the larger string. -/
def dateGe (a b : Row) : Bool := strLe b.date a.date

/-- The Merger's final merge (`publish.py` lines 184-196): concatenate the
readable input tables, coerce to the canonical six columns, drop duplicate
`url`s keeping the first occurrence, then sort by `date` descending. -/
def mergeRows (ts : List RawTable) : List Row :=
  insSortB dateGe (dedupByUrl (concatCoerced ts))

/-- The Query Service's `load_articles`: read every CSV, coerce each to the
canonical schema, concatenate, and deduplicate on full-row equality. -/
def loadArticles (ts : List RawTable) : List Row :=
  dedupFull (concatCoerced ts)

/-- Digit-string to number (Python `int` on a string of ASCII digits). -/
def natOfDigits : List Char → Nat → Nat
  | [], acc => acc
  | c :: cs, acc => natOfDigits cs (acc * 10 + (c.toNat - 48))

/-- Parse exactly `n` ASCII digits from the front, returning the value and
the rest. -/
def takeDigits : Nat → List Char → Option (Nat × List Char)
  | 0, l => some (0, l)
  | _ + 1, [] => none
  | n + 1, c :: cs =>
    if c.isDigit then
      match takeDigits n cs with
      | some (v, rest) => some ((c.toNat - 48) * 10 ^ n + v, rest)
      | none => none
    else none

/-- Days from the civil date `y-m-d` to 1970-01-01 (Gregorian), for years
`1 ≤ y ≤ 9999`.  Standard era-based civil-calendar arithmetic. -/
def epochDays (y m d : Nat) : Int :=
  let y' : Nat := if m ≤ 2 then y - 1 else y
  let era : Nat := y' / 400
  let yoe : Nat := y' % 400
  let mp : Nat := (m + 9) % 12
  let doy : Nat := (153 * mp + 2) / 5 + (d - 1)
  let doe : Nat := yoe * 365 + yoe / 4 - yoe / 100 + doy
  (era * 146097 + doe : Int) - 719468

/-- Day count of a month in year `y` (Gregorian). -/
def daysInMonth (y m : Nat) : Nat :=
  if m = 2 then (if y % 4 = 0 ∧ (y % 100 ≠ 0 ∨ y % 400 = 0) then 29 else 28)
  else if m = 4 ∨ m = 6 ∨ m = 9 ∨ m = 11 then 30
  else 31

/-- Parse the optional timezone suffix: nothing (naive, treated as UTC by
`utc=True`), a literal Z, or a `±HH:MM` offset.  Returns the offset in
seconds. -/
def parseZone : List Char → Option Int
  | [] => some 0
  | ['Z'] => some 0
  | ['z'] => some 0
  | '+' :: rest =>
    match takeDigits 2 rest with
    | some (h, ':' :: rest2) =>
      match takeDigits 2 rest2 with
      | some (mi, []) => if h ≤ 23 ∧ mi ≤ 59 then some (h * 3600 + mi * 60) else none
      | _ => none
    | _ => none
  | '-' :: rest =>
    match takeDigits 2 rest with
    | some (h, ':' :: rest2) =>
      match takeDigits 2 rest2 with
      | some (mi, []) => if h ≤ 23 ∧ mi ≤ 59 then some (-(h * 3600 + mi * 60 : Int)) else none
      | _ => none
    | _ => none
  | _ => none

/-- Parse `HH:MM:SS`, an optional fractional-second part (truncated), and an
optional zone; returns seconds-of-day and the zone offset. -/
def parseTime (l : List Char) : Option (Nat × Int) :=
  match takeDigits 2 l with
  | some (h, ':' :: r1) =>
    match takeDigits 2 r1 with
    | some (mi, ':' :: r2) =>
      match takeDigits 2 r2 with
      | some (s, r3) =>
        if h ≤ 23 ∧ mi ≤ 59 ∧ s ≤ 59 then
          let r4 := match r3 with
                    | '.' :: fr => fr.dropWhile Char.isDigit
                    | _ => r3
          match parseZone r4 with
          | some off => some (h * 3600 + mi * 60 + s, off)
          | none => none
        else none
      | _ => none
    | _ => none
  | _ => none

/-- Model of `pd.to_datetime(s, errors="coerce", utc=True)` (and of
`dateutil.parser.parse`) on its ISO-8601 fragment: `YYYY-MM-DD`, optionally
followed by `T` or a space and `HH:MM:SS[.ffff][Z|±HH:MM]`.  Returns seconds
since the Unix epoch, or `none` when the string is not of this shape
(modelling an unparsable date). -/
def parseIso (l : List Char) : Option Int :=
  match takeDigits 4 l with
  | some (y, '-' :: r1) =>
    match takeDigits 2 r1 with
    | some (m, '-' :: r2) =>
      match takeDigits 2 r2 with
      | some (d, r3) =>
        if 1 ≤ y ∧ 1 ≤ m ∧ m ≤ 12 ∧ 1 ≤ d ∧ d ≤ daysInMonth y m then
          match r3 with
          | [] => some (epochDays y m d * 86400)
          | 'T' :: r4 =>
            match parseTime r4 with
            | some (sod, off) => some (epochDays y m d * 86400 + sod - off)
            | none => none
          | ' ' :: r4 =>
            match parseTime r4 with
            | some (sod, off) => some (epochDays y m d * 86400 + sod - off)
            | none => none
          | _ => none
        else none
      | _ => none
    | _ => none
  | _ => none

/-- The row predicate `_ok` inside `apply_date_filter`: strip the stored
date string, reject it when empty, best-effort parse it, reject it when
unparsable, and otherwise keep the row when the parsed instant is at or
after `start`. -/
def dateOk (start : Int) (d : String) : Bool :=
  let s := trimStr d
  if s = "" then false
  else
    match parseIso s.data with
    | none => false
    | some t => start ≤ t

/-- Recognition of the `<N>d` window keys: ends with a literal d preceded by
a non-empty run of digits (`date_key.endswith("d") and
date_key[:-1].isdigit()`). -/
def keyNd (key : String) : Bool :=
  key.data.getLast? = some 'd'
    && (key.dropRight 1).data ≠ []
    && (key.dropRight 1).data.all Char.isDigit

/-- The number of days of a recognized `<N>d` key. -/
def windowDays (key : String) : Nat := natOfDigits (key.dropRight 1).data 0

/-- Model of `apply_date_filter` from `app.py`: empty frame or empty key pass
through; `today` filters from the current UTC midnight; `<N>d` filters from
`now` minus N days; anything else passes through unchanged. -/
def applyDateFilter (now : Int) (key : String) (rows : List Row) : List Row :=
  if rows = [] then rows
  else if key = "" then rows
  else if key = "today" then rows.filter fun r => dateOk (now - now.emod 86400) r.date
  else if keyNd key then
    rows.filter fun r => dateOk (now - (windowDays key : Int) * 86400) r.date
  else rows

/-- Pagination of the `articles` route: fixed page size 24, 1-indexed page,
slice `[(page-1)*24 : page*24]` of the filtered rows, and the reported total
is the full filtered count. -/
def paginate (rows : List Row) (page : Nat) : List Row × Nat :=
  ((rows.drop ((page - 1) * 24)).take 24, rows.length)

/-- Model of `url_hash` from `ingest_rss.py`: sha256 of the trimmed, lower-cased URL.
The hash value is modelled by the normalized string itself; only membership
of the hash in the seen-set matters, and sha256 is treated as injective. -/
def normUrl (u : String) : String := lowerStr (trimStr u)

/-- The cap at the end of `html_to_text`: truncate to `maxLen` code points
and append a single-character ellipsis when (and only when) the text was
longer than the cap. -/
def capText (text : String) (maxLen : Nat) : String :=
  if maxLen < text.length then strTake text maxLen ++ "…" else text

/-- Model of `html_to_text(html, max_len)`: empty input gives the empty string;
otherwise the HTML is reduced to visible text (the BeautifulSoup
tag-stripping and whitespace-collapsing step, taken as the parameter
`strip` since it lives in an external library) and then capped. -/
def htmlToText (strip : String → String) (html : String) (maxLen : Nat) : String :=
  if html = "" then "" else capText (strip html) maxLen

/-- One parsed feed entry, as `ingest_rss.py` reads it through `getattr`
with `""` defaults: a missing field is the empty string. -/
structure Entry where
  title : String
  link : String
  summary : String
  description : String
  published : String
  updated : String

/-- Python `a or b` on strings: `b` exactly when `a` is empty. -/
def pyOr (a b : String) : String := if a = "" then b else a

/-- The per-entry emission of `ingest_rss.py` (lines 106-122): entries with
an empty link produce nothing; otherwise title and summary are tag-stripped
and capped (180 and 800 code points), the publish timestamp is the parsed
`published`/`updated` field or else the current time, and the URL is the
trimmed link.  `parseD` models `parse_date` (ISO-8601 via `dateutil`) and
`nowIso` the current UTC time's ISO string. -/
def emitEntry (strip : String → String) (parseD : String → Option String)
    (nowIso lang name : String) (e : Entry) : Option Row :=
  if e.link = "" then none
  else
    let summaryRaw := pyOr e.summary e.description
    let pub := pyOr e.published e.updated
    let dateIso := (parseD pub).getD nowIso
    some
      { title := trimStr (htmlToText strip e.title 180)
        body := trimStr (htmlToText strip summaryRaw 800)
        language := lang
        date := dateIso
        source := name
        url := trimStr e.link }

/-- The items list one source contributes, in feed order. -/
def buildItems (strip : String → String) (parseD : String → Option String)
    (nowIso lang name : String) (entries : List Entry) : List Row :=
  entries.filterMap (emitEntry strip parseD nowIso lang name)

/-- The keep-loop of `ingest_rss.py` (lines 126-135): walk the sorted items,
stop once 8 have been kept for this source, drop any item whose normalized
URL is already in the global seen-set, and record kept URLs in it. -/
def takeFresh (seen : List String) (kept : Nat) : List Row → List String × List Row
  | [] => (seen, [])
  | it :: rest =>
    if 8 ≤ kept then (seen, [])
    else if normUrl it.url ∈ seen then takeFresh seen kept rest
    else
      let p := takeFresh (normUrl it.url :: seen) (kept + 1) rest
      (p.1, it :: p.2)

/-- One source's slice of the run: sort its items by date descending, then
keep at most 8 fresh ones (`ingest_rss.py` lines 124-135). -/
def processSource (seen : List String) (items : List Row) :
    List String × List Row :=
  takeFresh seen 0 (insSortB dateGe items)

/-- A whole run over the configured sources: the seen-set and the row list
accumulate across sources. -/
def runAll (sources : List (List Row)) : List String × List Row :=
  sources.foldl
    (fun acc items =>
      let p := processSource acc.1 items
      (p.1, acc.2 ++ p.2))
    ([], [])

/-- Model of `clean_text` from `preprocess_html.py`: collapse every whitespace run to
a single space, then strip. -/
def cleanChars (prevWs : Bool) : List Char → List Char
  | [] => []
  | c :: cs =>
    if isWs c then
      if prevWs then cleanChars true cs else ' ' :: cleanChars true cs
    else c :: cleanChars false cs

def cleanText (s : String) : String := trimStr ⟨cleanChars false s.data⟩

/-- One DOM element reached by the selector scan of
`iter_candidate_blocks`, in scan order: the selector that found it, its
`get_text(" ")` result, and its `<p>`-descendant count. -/
structure El where
  sel : String
  text : String
  p_count : Nat

/-- One candidate block record: `selector`, pre-truncation text length,
paragraph count, and the text truncated to 20,000 code points. -/
structure Block where
  selector : String
  length : Nat
  p_count : Nat
  text : String
deriving DecidableEq, Repr

/-- Model of `iter_candidate_blocks`: clean each element's text, skip empty ones, and
record length (of the full cleaned text), paragraph count and the capped
text. -/
def iterCandidateBlocks (els : List El) : List Block :=
  els.filterMap fun el =>
    let text := cleanText el.text
    if text = "" then none
    else some
      { selector := el.sel
        length := text.length
        p_count := el.p_count
        text := strTake text 20000 }

/-- Python tuple comparison on the ranking key `(p_count, length)`:
lexicographic less-or-equal. -/
def pairLe (x y : Nat × Nat) : Bool :=
  decide (x.1 < y.1) || (decide (x.1 = y.1) && decide (x.2 ≤ y.2))

/-- Descending comparator on blocks for
`sorted(..., key=lambda b: (b["p_count"], b["length"]), reverse=True)`. -/
def blockGe (a b : Block) : Bool := pairLe (b.p_count, b.length) (a.p_count, a.length)

/-- The full ranked candidate list of one page (before the top-10 cut). -/
def rankBlocks (els : List El) : List Block :=
  insSortB blockGe (iterCandidateBlocks els)

/-- Model of `preprocess_one` line 50: the ranked candidate list cut to the top 10. -/
def scoreBlocks (els : List El) : List Block :=
  (rankBlocks els).take 10

/-- One record of a page's interim `.jsonl` file as `extract_content.py`
reads it: the page's title guess (Python `or ""` collapses a missing guess
to the empty string) and one candidate block. -/
structure PRec where
  title_guess : String
  block : Block
deriving DecidableEq, Repr

/-- Descending comparator on records for `pick_best_block`'s
`sorted(records, key=lambda r: (p_count, length), reverse=True)`. -/
def recGe (a b : PRec) : Bool :=
  pairLe (b.block.p_count, b.block.length) (a.block.p_count, a.block.length)

/-- Model of `pick_best_block`: `None` on an empty record list, otherwise the first
element of the ranked (descending, ties in scan order) list. -/
def pickBestBlock (records : List PRec) : Option PRec :=
  match records with
  | [] => none
  | _ :: _ => (insSortB recGe records).head?

/-- Model of `re.sub(r"^https?://(www\.)?", "", url).split("/")[0]`: strip one
scheme, then an immediately following `www.`, then keep everything up to
the first slash. -/
def hostOf (url : String) : String :=
  let l := url.data
  let stripped :=
    if List.isPrefixOf "https://".data l then
      let r := l.drop 8
      if List.isPrefixOf "www.".data r then r.drop 4 else r
    else if List.isPrefixOf "http://".data l then
      let r := l.drop 7
      if List.isPrefixOf "www.".data r then r.drop 4 else r
    else l
  ⟨stripped.takeWhile (fun c => c ≠ '/')⟩

/-- Python `needle in hay` on strings. -/
def containsSub (needle : List Char) : List Char → Bool
  | [] => needle.isEmpty
  | c :: t => List.isPrefixOf needle (c :: t) || containsSub needle t

def strContains (hay needle : String) : Bool := containsSub needle.data hay.data

def arabicKeys : List String :=
  ["aljazeera", "skynewsarabia", "alarabiya", "akhbaar", "arabic.cnn", "bbc.com"]

def russianKeys : List String :=
  ["rbc.ru", "rt.com", "tass.com", "meduza.io", "echo.msk.ru", "sputniknews"]

/-- The keyword-list language guess of `extract_content.py`. -/
def guessLanguage (source : String) : String :=
  if arabicKeys.any (fun k => strContains source k) then "Arabic"
  else if russianKeys.any (fun k => strContains source k) then "Russian"
  else "English"

/-- The per-page inputs of the loop body of `extract_content.py`'s `main`:
the page's interim records plus its sidecar metadata (final and requested
URL, the date found in the page HTML by `find_date_in_html`, and the
`Last-Modified` response header), each the empty string when absent. -/
structure PageIn where
  records : List PRec
  final_url : String
  requested_url : String
  date_html : String
  last_modified : String

/-- The loop body of `extract_content.py` `main` (lines 74-105): skip the
page when no best block exists, otherwise build the article row. -/
def pageRecord (p : PageIn) : Option Row :=
  match pickBestBlock p.records with
  | none => none
  | some best =>
    let text := best.block.text
    let title :=
      if best.title_guess = "" then
        trimStr (strTake ⟨text.data.takeWhile (fun c => c ≠ '.')⟩ 140)
      else best.title_guess
    let url := pyOr p.final_url p.requested_url
    let source := if url = "" then "" else hostOf url
    some
      { title := title
        body := strTake text 2000
        language := guessLanguage source
        date := pyOr p.date_html p.last_modified
        source := source
        url := url }

theorem pairLe_total (x y : Nat × Nat) : pairLe x y = true ∨ pairLe y x = true := by
  unfold pairLe
  rcases Nat.lt_trichotomy x.1 y.1 with h | h | h
  · left; simp [h]
  · rcases Nat.le_total x.2 y.2 with h2 | h2
    · left; simp [h, h2]
    · right; simp [h.symm, h2]
  · right; simp [h]

theorem pairLe_trans (x y z : Nat × Nat) (h1 : pairLe x y = true)
    (h2 : pairLe y z = true) : pairLe x z = true := by
  unfold pairLe at h1 h2 ⊢
  simp only [Bool.or_eq_true, Bool.and_eq_true, decide_eq_true_eq] at h1 h2 ⊢
  omega

theorem dateGe_total (a b : Row) : dateGe a b = true ∨ dateGe b a = true := by
  unfold dateGe strLe
  rcases listLe_total b.date.data a.date.data with h | h
  · left; exact h
  · right; exact h

theorem dateGe_trans (a b c : Row) (h1 : dateGe a b = true)
    (h2 : dateGe b c = true) : dateGe a c = true :=
  listLe_trans h2 h1

theorem blockGe_total (a b : Block) : blockGe a b = true ∨ blockGe b a = true := by
  unfold blockGe
  rcases pairLe_total (b.p_count, b.length) (a.p_count, a.length) with h | h
  · left; exact h
  · right; exact h

theorem blockGe_trans (a b c : Block) (h1 : blockGe a b = true)
    (h2 : blockGe b c = true) : blockGe a c = true :=
  pairLe_trans _ _ _ h2 h1

theorem recGe_total (a b : PRec) : recGe a b = true ∨ recGe b a = true := by
  unfold recGe
  rcases pairLe_total (b.block.p_count, b.block.length) (a.block.p_count, a.block.length) with h | h
  · left; exact h
  · right; exact h

theorem recGe_trans (a b c : PRec) (h1 : recGe a b = true)
    (h2 : recGe b c = true) : recGe a c = true :=
  pairLe_trans _ _ _ h2 h1

theorem dropWs_length_le (l : List Char) : (dropWs l).length ≤ l.length := by
  induction l with
  | nil => exact Nat.le_refl _
  | cons c cs ih =>
    simp only [dropWs]
    by_cases h : isWs c = true
    · simp only [h, if_true]
      exact Nat.le_succ_of_le ih
    · simp [h]

theorem trimList_length_le (l : List Char) : (trimList l).length ≤ l.length := by
  unfold trimList
  calc (dropWs (dropWs l.reverse).reverse).length
      ≤ (dropWs l.reverse).reverse.length := dropWs_length_le _
    _ = (dropWs l.reverse).length := List.length_reverse _
    _ ≤ l.reverse.length := dropWs_length_le _
    _ = l.length := List.length_reverse _

theorem trimStr_length_le (s : String) : (trimStr s).length ≤ s.length :=
  trimList_length_le s.data

theorem strTake_length (s : String) (n : Nat) :
    (strTake s n).length = min n s.length := by
  show (s.data.take n).length = min n s.data.length
  simp [List.length_take]

theorem mem_of_mem_dedupByUrlAux {seen : List String} {l : List Row} {r : Row}
    (h : r ∈ dedupByUrlAux seen l) : r ∈ l := by
  induction l generalizing seen with
  | nil => simp [dedupByUrlAux] at h
  | cons a t ih =>
    simp only [dedupByUrlAux] at h
    by_cases ha : a.url ∈ seen
    · simp only [ha, if_true] at h
      exact List.mem_cons_of_mem a (ih h)
    · simp only [ha, if_false] at h
      rcases List.mem_cons.mp h with rfl | h'
      · exact List.mem_cons_self _ _
      · exact List.mem_cons_of_mem a (ih h')

theorem url_not_seen_of_mem_dedupByUrlAux {seen : List String} {l : List Row}
    {r : Row} (h : r ∈ dedupByUrlAux seen l) : r.url ∉ seen := by
  induction l generalizing seen with
  | nil => simp [dedupByUrlAux] at h
  | cons a t ih =>
    simp only [dedupByUrlAux] at h
    by_cases ha : a.url ∈ seen
    · simp only [ha, if_true] at h
      exact ih h
    · simp only [ha, if_false] at h
      rcases List.mem_cons.mp h with rfl | h'
      · exact ha
      · intro hr
        exact ih h' (List.mem_cons_of_mem _ hr)

theorem countP_dedupByUrlAux (u : String) (l : List Row) (seen : List String)
    (hu : u ∉ seen) :
    (dedupByUrlAux seen l).countP (fun r => r.url == u)
      = if l.any (fun r => r.url == u) then 1 else 0 := by
  induction l generalizing seen with
  | nil => simp [dedupByUrlAux]
  | cons a t ih =>
    simp only [dedupByUrlAux, List.any_cons]
    by_cases hau : a.url = u
    · subst hau
      rw [if_neg hu]
      have hz : (dedupByUrlAux (a.url :: seen) t).countP (fun r => r.url == a.url) = 0 := by
        rw [List.countP_eq_zero]
        intro x hx hxe
        exact (url_not_seen_of_mem_dedupByUrlAux hx)
          ((beq_iff_eq.mp hxe) ▸ List.mem_cons_self _ _)
      simp [List.countP_cons, hz]
    · have hau' : (a.url == u) = false := beq_eq_false_iff_ne.mpr hau
      by_cases ha : a.url ∈ seen
      · rw [if_pos ha, ih seen hu]
        simp [hau']
      · rw [if_neg ha]
        have hu' : u ∉ a.url :: seen := by
          intro h
          rcases List.mem_cons.mp h with h' | h'
          · exact hau h'.symm
          · exact hu h'
        rw [List.countP_cons, ih _ hu']
        simp [hau']

theorem find?_of_mem_dedupByUrlAux {u : String} {l : List Row}
    {seen : List String} (hu : u ∉ seen) {r : Row}
    (hr : r ∈ dedupByUrlAux seen l) (hru : r.url = u) :
    l.find? (fun x => x.url == u) = some r := by
  induction l generalizing seen with
  | nil => simp [dedupByUrlAux] at hr
  | cons a t ih =>
    simp only [dedupByUrlAux] at hr
    by_cases ha : a.url ∈ seen
    · rw [if_pos ha] at hr
      have hau : (a.url == u) = false := by
        rw [beq_eq_false_iff_ne]
        intro he
        exact hu (he ▸ ha)
      rw [List.find?_cons_of_neg _ (by simp [hau])]
      exact ih hu hr
    · rw [if_neg ha] at hr
      rcases List.mem_cons.mp hr with rfl | hr'
      · exact List.find?_cons_of_pos _ (beq_iff_eq.mpr hru)
      · have hnot := url_not_seen_of_mem_dedupByUrlAux hr'
        rw [hru] at hnot
        have hau : (a.url == u) = false := by
          rw [beq_eq_false_iff_ne]
          intro he
          exact hnot (he ▸ List.mem_cons_self _ _)
        rw [List.find?_cons_of_neg _ (by simp [hau])]
        exact ih hnot hr'

theorem takeFresh_length (l : List Row) (seen : List String) (kept : Nat) :
    (takeFresh seen kept l).2.length ≤ 8 - kept := by
  induction l generalizing seen kept with
  | nil => simp [takeFresh]
  | cons it rest ih =>
    simp only [takeFresh]
    by_cases hk : 8 ≤ kept
    · simp [hk]
    · rw [if_neg hk]
      by_cases hs : normUrl it.url ∈ seen
      · rw [if_pos hs]
        exact ih seen kept
      · rw [if_neg hs]
        have := ih (normUrl it.url :: seen) (kept + 1)
        simp only [List.length_cons]
        omega

theorem takeFresh_sublist (l : List Row) (seen : List String) (kept : Nat) :
    (takeFresh seen kept l).2.Sublist l := by
  induction l generalizing seen kept with
  | nil => simp [takeFresh]
  | cons it rest ih =>
    simp only [takeFresh]
    by_cases hk : 8 ≤ kept
    · simp [hk]
    · rw [if_neg hk]
      by_cases hs : normUrl it.url ∈ seen
      · rw [if_pos hs]
        exact List.Sublist.cons it (ih seen kept)
      · rw [if_neg hs]
        exact List.Sublist.cons₂ it (ih (normUrl it.url :: seen) (kept + 1))

theorem takeFresh_not_seen {l : List Row} {seen : List String} {kept : Nat}
    {r : Row} (h : r ∈ (takeFresh seen kept l).2) : normUrl r.url ∉ seen := by
  induction l generalizing seen kept with
  | nil => simp [takeFresh] at h
  | cons it rest ih =>
    simp only [takeFresh] at h
    by_cases hk : 8 ≤ kept
    · simp [hk] at h
    · rw [if_neg hk] at h
      by_cases hs : normUrl it.url ∈ seen
      · rw [if_pos hs] at h
        exact ih h
      · rw [if_neg hs] at h
        rcases List.mem_cons.mp h with rfl | h'
        · exact hs
        · intro hmem
          exact ih h' (List.mem_cons_of_mem _ hmem)

theorem takeFresh_seen_grows {l : List Row} {seen : List String} {kept : Nat}
    {s : String} (h : s ∈ seen) : s ∈ (takeFresh seen kept l).1 := by
  induction l generalizing seen kept with
  | nil => simpa [takeFresh] using h
  | cons it rest ih =>
    simp only [takeFresh]
    by_cases hk : 8 ≤ kept
    · simpa [hk] using h
    · rw [if_neg hk]
      by_cases hs : normUrl it.url ∈ seen
      · rw [if_pos hs]
        exact ih h
      · rw [if_neg hs]
        exact ih (List.mem_cons_of_mem _ h)

theorem takeFresh_mem_seen {l : List Row} {seen : List String} {kept : Nat}
    {r : Row} (h : r ∈ (takeFresh seen kept l).2) :
    normUrl r.url ∈ (takeFresh seen kept l).1 := by
  induction l generalizing seen kept with
  | nil => simp [takeFresh] at h
  | cons it rest ih =>
    simp only [takeFresh] at h ⊢
    by_cases hk : 8 ≤ kept
    · simp [hk] at h
    · rw [if_neg hk] at h ⊢
      by_cases hs : normUrl it.url ∈ seen
      · rw [if_pos hs] at h ⊢
        exact ih h
      · rw [if_neg hs] at h ⊢
        rcases List.mem_cons.mp h with rfl | h'
        · exact takeFresh_seen_grows (List.mem_cons_self _ _)
        · exact ih h'

theorem takeFresh_nodup (l : List Row) (seen : List String) (kept : Nat) :
    ((takeFresh seen kept l).2.map fun r => normUrl r.url).Nodup := by
  induction l generalizing seen kept with
  | nil => simp [takeFresh]
  | cons it rest ih =>
    simp only [takeFresh]
    by_cases hk : 8 ≤ kept
    · simp [hk]
    · rw [if_neg hk]
      by_cases hs : normUrl it.url ∈ seen
      · rw [if_pos hs]
        exact ih seen kept
      · rw [if_neg hs]
        simp only [List.map_cons, List.nodup_cons]
        refine ⟨?_, ih (normUrl it.url :: seen) (kept + 1)⟩
        intro hmem
        rcases List.mem_map.mp hmem with ⟨x, hx, hxe⟩
        exact (takeFresh_not_seen hx) (hxe ▸ List.mem_cons_self _ _)

theorem mem_dedupFullAux {seen : List Row} {l : List Row} {r : Row} :
    r ∈ dedupFullAux seen l ↔ r ∈ l ∧ r ∉ seen := by
  induction l generalizing seen with
  | nil => simp [dedupFullAux]
  | cons a t ih =>
    simp only [dedupFullAux]
    by_cases ha : a ∈ seen
    · rw [if_pos ha, ih]
      constructor
      · rintro ⟨h1, h2⟩
        exact ⟨List.mem_cons_of_mem _ h1, h2⟩
      · rintro ⟨h1, h2⟩
        rcases List.mem_cons.mp h1 with rfl | h1'
        · exact absurd ha h2
        · exact ⟨h1', h2⟩
    · rw [if_neg ha]
      constructor
      · intro h
        rcases List.mem_cons.mp h with rfl | h'
        · exact ⟨List.mem_cons_self _ _, ha⟩
        · rcases ih.mp h' with ⟨h1, h2⟩
          exact ⟨List.mem_cons_of_mem _ h1, fun hm => h2 (List.mem_cons_of_mem _ hm)⟩
      · rintro ⟨h1, h2⟩
        rcases List.mem_cons.mp h1 with rfl | h1'
        · exact List.mem_cons_self _ _
        · by_cases hra : r = a
          · exact hra ▸ List.mem_cons_self _ _
          · exact List.mem_cons_of_mem _
              (ih.mpr ⟨h1', fun hm => (List.mem_cons.mp hm).elim hra h2⟩)

theorem mem_dedupFull (l : List Row) (r : Row) : r ∈ dedupFull l ↔ r ∈ l := by
  unfold dedupFull
  rw [mem_dedupFullAux]
  simp

/-- The full canonical column list, for inputs that have every column. -/
def allCols : List Col := [.title, .body, .language, .date, .source, .url]

def exR1 : Row := ⟨"t1", "b1", "English", "2024-01-01", "s", "http://x"⟩

def exR2 : Row := ⟨"t2", "b2", "English", "2024-01-02", "s", "http://x"⟩

def exR3 : Row := ⟨"t3", "b3", "English", "2024-01-01", "s", "http://X"⟩

def exR4 : Row := ⟨"t4", "b4", "English", "2024-01-02", "s", "http://x"⟩

/-- A raw table that has all six canonical columns. -/
def exTable (rs : List Row) : RawTable := ⟨allCols, rs.map Row.get⟩

/-- Claim C1 (counterexample): on a merge input with two same-url records
dated 2024-01-01 and 2024-01-02, the Merger retains the FIRST-seen record
(dated 2024-01-01), not the one with the lexicographically greatest date,
because `drop_duplicates` runs before `sort_values`; and two records whose
urls differ only in letter case are NOT deduplicated at all, contradicting
the claimed case-insensitive comparison. -/
theorem claim_C1_counterexample :
    mergeRows [exTable [exR1, exR2]] = [exR1]
    ∧ exR1.url = exR2.url
    ∧ exR1.date ≠ exR2.date
    ∧ strLe exR2.date exR1.date = false
    ∧ exR2 ∉ mergeRows [exTable [exR1, exR2]]
    ∧ normUrl exR3.url = normUrl exR4.url
    ∧ exR3.url ≠ exR4.url
    ∧ (mergeRows [exTable [exR3, exR4]]).length = 2 := by
  decide

/-- Claim C1 (amended): for any merge input containing a record with url
`u` (compared by exact string equality), the Merger's output retains
exactly one record with that url, namely the first-seen one in
concatenation order: the duplicate drop happens before the descending date
sort, so the sort only reorders the deduplicated rows. -/
theorem claim_C1_merger_dedup (ts : List RawTable) (u : String)
    (h : (concatCoerced ts).any (fun r => r.url == u) = true) :
    (mergeRows ts).countP (fun r => r.url == u) = 1
    ∧ ∀ r ∈ mergeRows ts, r.url = u →
        (concatCoerced ts).find? (fun x => x.url == u) = some r := by
  constructor
  · have hperm : List.Perm (mergeRows ts) (dedupByUrl (concatCoerced ts)) :=
      perm_insSortB _ _
    rw [List.Perm.countP_eq _ hperm]
    unfold dedupByUrl
    rw [countP_dedupByUrlAux u _ [] (by simp)]
    simp [h]
  · intro r hr hru
    have hr' : r ∈ dedupByUrl (concatCoerced ts) := by
      have := (mem_insSortB dateGe (dedupByUrl (concatCoerced ts)) r).mp
      exact this hr
    exact find?_of_mem_dedupByUrlAux (by simp) hr' hru

/-- Witness for C1 (amended), at the concrete duplicate-url input. -/
theorem claim_C1_witness :
    ((concatCoerced [exTable [exR1, exR2]]).any
        (fun r => r.url == "http://x") = true)
    ∧ ((mergeRows [exTable [exR1, exR2]]).countP
          (fun r => r.url == "http://x") = 1
       ∧ ∀ r ∈ mergeRows [exTable [exR1, exR2]], r.url = "http://x" →
           (concatCoerced [exTable [exR1, exR2]]).find?
               (fun x => x.url == "http://x") = some r) :=
  ⟨by decide, claim_C1_merger_dedup [exTable [exR1, exR2]] "http://x" (by decide)⟩

theorem dateOk_iff (start : Int) (d : String) :
    dateOk start d = true
      ↔ ∃ t : Int, parseIso (trimStr d).data = some t ∧ start ≤ t := by
  unfold dateOk
  by_cases hs : trimStr d = ""
  · rw [if_pos hs]
    constructor
    · intro h
      exact absurd h (by simp)
    · rintro ⟨t, ht, _⟩
      rw [hs] at ht
      rw [show parseIso "".data = none from rfl] at ht
      exact absurd ht (by simp)
  · rw [if_neg hs]
    cases hp : parseIso (trimStr d).data with
    | none =>
      simp only [hp]
      constructor
      · intro h
        exact absurd h (by simp)
      · rintro ⟨t, ht, _⟩
        exact absurd ht (by simp)
    | some t =>
      simp only [hp, decide_eq_true_eq]
      constructor
      · intro h
        exact ⟨t, rfl, h⟩
      · rintro ⟨t', ht', h⟩
        cases Option.some.inj ht'
        exact h

theorem keyNd_ne_empty {key : String} (h : keyNd key = true) : key ≠ "" := by
  intro he
  rw [he] at h
  exact absurd h (by decide)

theorem keyNd_ne_today {key : String} (h : keyNd key = true) : key ≠ "today" := by
  intro he
  rw [he] at h
  exact absurd h (by decide)

def exInc : Row := ⟨"t", "b", "English", "2024-01-03T00:00:01Z", "s", "u1"⟩

def exExc : Row := ⟨"t", "b", "English", "2024-01-02T23:59:59Z", "s", "u2"⟩

def exEmptyDate : Row := ⟨"t", "b", "English", "", "s", "u3"⟩

def exBadDate : Row := ⟨"t", "b", "English", "not a date", "s", "u4"⟩

/-- Claim C2: for every table and every window key of the form a digit
string followed by d, the date filter keeps exactly the rows whose stored
date string (stripped) parses to a UTC instant at or after `now` minus N
days, excluding rows with empty or unparsable dates without error; in
particular with key 7d and now = 2024-01-10T00:00:00Z (epoch 1704844800), a
row dated 2024-01-02T23:59:59Z is excluded and one dated
2024-01-03T00:00:01Z is included. -/
theorem claim_C2_date_window :
    (∀ (rows : List Row) (now : Int) (key : String), keyNd key = true →
      ∀ r : Row,
        r ∈ applyDateFilter now key rows ↔
          r ∈ rows ∧ ∃ t : Int,
            parseIso (trimStr r.date).data = some t
            ∧ now - (windowDays key : Int) * 86400 ≤ t)
    ∧ applyDateFilter 1704844800 "7d" [exInc, exExc, exEmptyDate, exBadDate]
        = [exInc]
    ∧ parseIso (trimStr exExc.date).data = some 1704239999
    ∧ parseIso (trimStr exInc.date).data = some 1704240001 := by
  refine ⟨?_, by decide, by decide, by decide⟩
  intro rows now key hk r
  unfold applyDateFilter
  by_cases hrows : rows = []
  · subst hrows
    simp
  · rw [if_neg hrows, if_neg (keyNd_ne_empty hk), if_neg (keyNd_ne_today hk),
      if_pos hk, List.mem_filter, dateOk_iff]

/-- Witness for C2's universally quantified part, at the concrete window
key 7d and the two concrete dated rows of the spec's example. -/
theorem claim_C2_witness :
    keyNd "7d" = true
    ∧ (exInc ∈ applyDateFilter 1704844800 "7d" [exInc, exExc] ↔
        exInc ∈ [exInc, exExc] ∧ ∃ t : Int,
          parseIso (trimStr exInc.date).data = some t
          ∧ 1704844800 - (windowDays "7d" : Int) * 86400 ≤ t) :=
  ⟨by decide,
    claim_C2_date_window.1 [exInc, exExc] 1704844800 "7d" (by decide) exInc⟩

/-- Claim C10: for every table and every non-empty window key that is
neither the string today nor a digit string followed by d, the date filter
returns the input rows completely unchanged: an unrecognized window
silently disables date filtering instead of raising or excluding rows. -/
theorem claim_C10_unrecognized_key (rows : List Row) (now : Int) (key : String)
    (h1 : key ≠ "") (h2 : key ≠ "today") (h3 : keyNd key = false) :
    applyDateFilter now key rows = rows := by
  unfold applyDateFilter
  by_cases hrows : rows = []
  · rw [if_pos hrows]
  · rw [if_neg hrows, if_neg h1, if_neg h2, if_neg (by simp [h3])]

/-- Witness for C10 at the three concrete unrecognized keys of the claim. -/
theorem claim_C10_witness :
    ("abc" ≠ "" ∧ "abc" ≠ "today" ∧ keyNd "abc" = false
      ∧ applyDateFilter 1704844800 "abc" [exInc, exExc] = [exInc, exExc])
    ∧ ("-3d" ≠ "" ∧ "-3d" ≠ "today" ∧ keyNd "-3d" = false
      ∧ applyDateFilter 1704844800 "-3d" [exInc, exExc] = [exInc, exExc])
    ∧ ("1.5d" ≠ "" ∧ "1.5d" ≠ "today" ∧ keyNd "1.5d" = false
      ∧ applyDateFilter 1704844800 "1.5d" [exInc, exExc] = [exInc, exExc]) :=
  ⟨⟨by decide, by decide, by decide,
      claim_C10_unrecognized_key [exInc, exExc] 1704844800 "abc"
        (by decide) (by decide) (by decide)⟩,
   ⟨by decide, by decide, by decide,
      claim_C10_unrecognized_key [exInc, exExc] 1704844800 "-3d"
        (by decide) (by decide) (by decide)⟩,
   ⟨by decide, by decide, by decide,
      claim_C10_unrecognized_key [exInc, exExc] 1704844800 "1.5d"
        (by decide) (by decide) (by decide)⟩⟩

/-- Claim C9: for every filtered result set and page number p ≥ 1, the
articles listing returns exactly the slice [(p-1)*24 : p*24]: element i of
the page is element (p-1)*24 + i of the filtered set (for i < 24), a page
starting at or beyond the end is empty without error, and the reported
total is the full filtered count independent of p. -/
theorem claim_C9_pagination (rows : List Row) (p : Nat) (hp : 1 ≤ p) :
    (paginate rows p).1 = (rows.drop ((p - 1) * 24)).take 24
    ∧ (∀ i : Nat, ((paginate rows p).1)[i]?
        = if i < 24 then rows[(p - 1) * 24 + i]? else none)
    ∧ (rows.length ≤ (p - 1) * 24 → (paginate rows p).1 = [])
    ∧ (paginate rows p).2 = rows.length := by
  refine ⟨rfl, ?_, ?_, rfl⟩
  · intro i
    show ((rows.drop ((p - 1) * 24)).take 24)[i]? = _
    rw [List.getElem?_take]
    by_cases hi : i < 24
    · rw [if_pos hi, if_pos hi, List.getElem?_drop]
    · rw [if_neg hi, if_neg hi]
  · intro hlen
    show (rows.drop ((p - 1) * 24)).take 24 = []
    rw [List.drop_eq_nil_of_le hlen]
    rfl

/-- Witness for C9: page 3 of a 5-element set is empty while page 1 holds
the first 24 elements, and the reported total stays 5. -/
theorem claim_C9_witness :
    1 ≤ 3
    ∧ ((paginate [exInc, exExc, exEmptyDate, exBadDate, exR1] 3).1
          = (([exInc, exExc, exEmptyDate, exBadDate, exR1].drop ((3 - 1) * 24)).take 24)
       ∧ (∀ i : Nat, ((paginate [exInc, exExc, exEmptyDate, exBadDate, exR1] 3).1)[i]?
            = if i < 24 then [exInc, exExc, exEmptyDate, exBadDate, exR1][(3 - 1) * 24 + i]? else none)
       ∧ ([exInc, exExc, exEmptyDate, exBadDate, exR1].length ≤ (3 - 1) * 24 →
            (paginate [exInc, exExc, exEmptyDate, exBadDate, exR1] 3).1 = [])
       ∧ (paginate [exInc, exExc, exEmptyDate, exBadDate, exR1] 3).2
          = [exInc, exExc, exEmptyDate, exBadDate, exR1].length) :=
  ⟨by decide, claim_C9_pagination [exInc, exExc, exEmptyDate, exBadDate, exR1] 3 (by decide)⟩

theorem nodup_dedupFullAux (l : List Row) (seen : List Row) :
    (dedupFullAux seen l).Nodup := by
  induction l generalizing seen with
  | nil => simp [dedupFullAux]
  | cons a t ih =>
    simp only [dedupFullAux]
    by_cases ha : a ∈ seen
    · rw [if_pos ha]
      exact ih seen
    · rw [if_neg ha]
      rw [List.nodup_cons]
      refine ⟨?_, ih (a :: seen)⟩
      intro hmem
      exact (mem_dedupFullAux.mp hmem).2 (List.mem_cons_self _ _)

/-- Claim C8: the Query Service deduplicates on full-row equality only: any
two loaded rows that share a url but differ in at least one other canonical
field are both kept (and the loaded table is duplicate-free as full-row
values) - a stricter dedup than the Merger's URL-only one. -/
theorem claim_C8_full_row_dedup (ts : List RawTable) (r1 r2 : Row)
    (h1 : r1 ∈ concatCoerced ts) (h2 : r2 ∈ concatCoerced ts)
    (hurl : r1.url = r2.url) (hne : r1 ≠ r2) :
    (r1 ∈ loadArticles ts ∧ r2 ∈ loadArticles ts)
    ∧ (loadArticles ts).Nodup := by
  refine ⟨⟨?_, ?_⟩, nodup_dedupFullAux _ _⟩
  · exact (mem_dedupFull _ _).mpr h1
  · exact (mem_dedupFull _ _).mpr h2

def exSameUrlA : Row := ⟨"headline A", "b", "English", "2024-01-01", "s", "http://x"⟩

def exSameUrlB : Row := ⟨"headline B", "b", "English", "2024-01-01", "s", "http://x"⟩

/-- Witness for C8, at two concrete rows that share a url but differ in
title: both survive `load_articles`. -/
theorem claim_C8_witness :
    (exSameUrlA ∈ concatCoerced [exTable [exSameUrlA, exSameUrlB]]
      ∧ exSameUrlB ∈ concatCoerced [exTable [exSameUrlA, exSameUrlB]]
      ∧ exSameUrlA.url = exSameUrlB.url
      ∧ exSameUrlA ≠ exSameUrlB)
    ∧ ((exSameUrlA ∈ loadArticles [exTable [exSameUrlA, exSameUrlB]]
        ∧ exSameUrlB ∈ loadArticles [exTable [exSameUrlA, exSameUrlB]])
       ∧ (loadArticles [exTable [exSameUrlA, exSameUrlB]]).Nodup) :=
  ⟨⟨by decide, by decide, by decide, by decide⟩,
    claim_C8_full_row_dedup [exTable [exSameUrlA, exSameUrlB]]
      exSameUrlA exSameUrlB (by decide) (by decide) (by decide) (by decide)⟩

theorem mem_concatCoerced {ts : List RawTable} {row : Row} :
    row ∈ concatCoerced ts
      ↔ ∃ t ∈ ts, ∃ rr ∈ t.rows, row = coerceRow t.cols rr := by
  unfold concatCoerced
  rw [List.mem_flatMap]
  constructor
  · rintro ⟨t, ht, hm⟩
    rcases List.mem_map.mp hm with ⟨rr, hrr, he⟩
    exact ⟨t, ht, rr, hrr, he.symm⟩
  · rintro ⟨t, ht, rr, hrr, he⟩
    exact ⟨t, ht, List.mem_map.mpr ⟨rr, hrr, he.symm⟩⟩

/-- Claim C6: both the Merger's output and the Query Service's loaded table
consist exclusively of schema-coerced rows: every output row arises from an
input row by the canonical coercion, and the coercion leaves present
columns unchanged while filling every absent canonical column with the
empty string (so all six canonical columns always exist). -/
theorem claim_C6_schema_completeness :
    (∀ (cols : List Col) (r : Col → String) (c : Col),
        (c ∉ cols → (coerceRow cols r).get c = "")
        ∧ (c ∈ cols → (coerceRow cols r).get c = r c))
    ∧ (∀ (ts : List RawTable) (row : Row), row ∈ mergeRows ts →
        ∃ t ∈ ts, ∃ rr ∈ t.rows, row = coerceRow t.cols rr)
    ∧ (∀ (ts : List RawTable) (row : Row), row ∈ loadArticles ts →
        ∃ t ∈ ts, ∃ rr ∈ t.rows, row = coerceRow t.cols rr) := by
  refine ⟨?_, ?_, ?_⟩
  · intro cols r c
    constructor
    · intro h
      cases c <;> simp [coerceRow, Row.get, h]
    · intro h
      cases c <;> simp [coerceRow, Row.get, h]
  · intro ts row hrow
    have h1 : row ∈ dedupByUrl (concatCoerced ts) :=
      (mem_insSortB dateGe _ row).mp hrow
    exact mem_concatCoerced.mp (mem_of_mem_dedupByUrlAux h1)
  · intro ts row hrow
    exact mem_concatCoerced.mp ((mem_dedupFull _ _).mp hrow)

/-- A raw input table that only has the url column. -/
def urlOnlyTable : RawTable := ⟨[Col.url], [Row.get exR1]⟩

/-- The rows of `urlOnlyTable` after coercion: five empty strings plus the
url. -/
def exCo : Row := ⟨"", "", "", "", "", "http://x"⟩

/-- Witness for C6, at a concrete table missing five of the six canonical
columns. -/
theorem claim_C6_witness :
    (Col.title ∉ [Col.url]
      ∧ (coerceRow [Col.url] (Row.get exR1)).get Col.title = "")
    ∧ (Col.url ∈ [Col.url]
      ∧ (coerceRow [Col.url] (Row.get exR1)).get Col.url = Row.get exR1 Col.url)
    ∧ (exCo ∈ mergeRows [urlOnlyTable]
      ∧ ∃ t ∈ [urlOnlyTable], ∃ rr ∈ t.rows, exCo = coerceRow t.cols rr)
    ∧ (exCo ∈ loadArticles [urlOnlyTable]
      ∧ ∃ t ∈ [urlOnlyTable], ∃ rr ∈ t.rows, exCo = coerceRow t.cols rr) :=
  ⟨⟨by decide,
      (claim_C6_schema_completeness.1 [Col.url] (Row.get exR1) Col.title).1 (by decide)⟩,
   ⟨by decide,
      (claim_C6_schema_completeness.1 [Col.url] (Row.get exR1) Col.url).2 (by decide)⟩,
   ⟨by decide,
      claim_C6_schema_completeness.2.1 [urlOnlyTable] exCo (by decide)⟩,
   ⟨by decide,
      claim_C6_schema_completeness.2.2 [urlOnlyTable] exCo (by decide)⟩⟩

theorem pairLe_refl (x : Nat × Nat) : pairLe x x = true := by
  unfold pairLe
  simp

def mkA (n : Nat) : String := ⟨List.replicate n 'a'⟩

def exEls : List El := [⟨"div", mkA 100, 3⟩, ⟨"div", mkA 500, 1⟩, ⟨"div", mkA 50, 3⟩]

set_option maxRecDepth 16384 in
/-- Claim C3: for every parsed document the Block Scorer produces at most
10 candidates, each with text truncated to at most 20,000 characters,
sorted descending lexicographically by the pair (paragraph count, length)
with ties kept in scan order (the filter equation below: within one key
class the ranked list preserves the enumeration order); and the concrete
pairs (3,100), (1,500), (3,50) rank as (3,100), (3,50), (1,500). -/
theorem claim_C3_block_ranking :
    (∀ els : List El,
      (scoreBlocks els).length ≤ 10
      ∧ (∀ b ∈ scoreBlocks els, b.text.length ≤ 20000)
      ∧ (scoreBlocks els).Pairwise (fun a b => blockGe a b = true)
      ∧ (∀ k : Nat × Nat,
          (rankBlocks els).filter (fun b => decide ((b.p_count, b.length) = k))
            = (iterCandidateBlocks els).filter
                (fun b => decide ((b.p_count, b.length) = k)))
      ∧ scoreBlocks els = (rankBlocks els).take 10)
    ∧ (scoreBlocks exEls).map (fun b => (b.p_count, b.length))
        = [(3, 100), (3, 50), (1, 500)] := by
  refine ⟨?_, by decide⟩
  intro els
  refine ⟨?_, ?_, ?_, ?_, rfl⟩
  · show ((rankBlocks els).take 10).length ≤ 10
    rw [List.length_take]
    exact min_le_left _ _
  · intro b hb
    have hb1 : b ∈ rankBlocks els := List.take_subset 10 _ hb
    have hb2 : b ∈ iterCandidateBlocks els := (mem_insSortB blockGe _ b).mp hb1
    unfold iterCandidateBlocks at hb2
    rcases List.mem_filterMap.mp hb2 with ⟨el, _, he⟩
    by_cases ht : cleanText el.text = ""
    · rw [if_pos ht] at he
      exact absurd he (by simp)
    · rw [if_neg ht] at he
      have : b.text = strTake (cleanText el.text) 20000 := by
        cases Option.some.inj he
        rfl
      rw [this, strTake_length]
      exact min_le_left _ _
  · exact List.Pairwise.sublist (List.take_sublist 10 _)
      (pairwise_insSortB blockGe blockGe_total blockGe_trans _)
  · intro k
    exact filter_insSortB blockGe _
      (fun x y hx hy => by
        unfold blockGe
        rw [of_decide_eq_true hx, of_decide_eq_true hy]
        exact pairLe_refl k) _

set_option maxRecDepth 16384 in
/-- Witness for C3, at the concrete three-block page. -/
theorem claim_C3_witness :
    (⟨"div", 100, 3, mkA 100⟩ : Block) ∈ scoreBlocks exEls
    ∧ (⟨"div", 100, 3, mkA 100⟩ : Block).text.length ≤ 20000
    ∧ (rankBlocks exEls).filter (fun b => decide ((b.p_count, b.length) = (3, 50)))
        = (iterCandidateBlocks exEls).filter
            (fun b => decide ((b.p_count, b.length) = (3, 50))) :=
  ⟨by decide,
   (claim_C3_block_ranking.1 exEls).2.1 ⟨"div", 100, 3, mkA 100⟩ (by decide),
   (claim_C3_block_ranking.1 exEls).2.2.2.1 (3, 50)⟩

def exPRec : PRec := ⟨"T", ⟨"div", 9, 1, "body text"⟩⟩

def exPage : PageIn := ⟨[exPRec], "http://www.example.com/a", "", "2024-01-01", ""⟩

def exPageEmpty : PageIn := ⟨[], "u", "", "", ""⟩

/-- Claim C7: a page with no candidates gives an empty candidate list (not
an error) from the Block Scorer, and the Article Extractor skips such a
page entirely; when candidates exist, the extractor selects index 0 of the
ranked list as best and emits a record built from it. -/
theorem claim_C7_skip_or_best :
    scoreBlocks [] = []
    ∧ (∀ els : List El, (∀ el ∈ els, cleanText el.text = "") → scoreBlocks els = [])
    ∧ pickBestBlock [] = none
    ∧ (∀ rs : List PRec, rs ≠ [] →
        pickBestBlock rs = (insSortB recGe rs)[0]?
        ∧ ∃ b, pickBestBlock rs = some b)
    ∧ (∀ p : PageIn, p.records = [] → pageRecord p = none)
    ∧ (∀ (p : PageIn) (best : PRec), pickBestBlock p.records = some best →
        ∃ row, pageRecord p = some row ∧ row.body = strTake best.block.text 2000) := by
  refine ⟨rfl, ?_, rfl, ?_, ?_, ?_⟩
  · intro els h
    have hnil : iterCandidateBlocks els = [] := by
      unfold iterCandidateBlocks
      rw [List.filterMap_eq_nil_iff]
      intro el hel
      simp [h el hel]
    unfold scoreBlocks rankBlocks
    rw [hnil]
    rfl
  · intro rs h
    cases rs with
    | nil => exact absurd rfl h
    | cons a t =>
      constructor
      · show (insSortB recGe (a :: t)).head? = _
        rw [List.head?_eq_getElem?]
      · cases hs : insSortB recGe (a :: t) with
        | nil =>
          have := (perm_insSortB recGe (a :: t)).length_eq
          rw [hs] at this
          simp at this
        | cons b bs =>
          refine ⟨b, ?_⟩
          show (insSortB recGe (a :: t)).head? = some b
          rw [hs]
          rfl
  · intro p h
    unfold pageRecord
    rw [h]
    rfl
  · intro p best h
    unfold pageRecord
    rw [h]
    exact ⟨_, rfl, rfl⟩

/-- Witness for C7, at a concrete empty page and a concrete one-candidate
page. -/
theorem claim_C7_witness :
    ((∀ el ∈ [(⟨"div", "  ", 0⟩ : El)], cleanText el.text = "")
      ∧ scoreBlocks [(⟨"div", "  ", 0⟩ : El)] = [])
    ∧ (([exPRec] : List PRec) ≠ []
      ∧ (pickBestBlock [exPRec] = (insSortB recGe [exPRec])[0]?
         ∧ ∃ b, pickBestBlock [exPRec] = some b))
    ∧ (exPageEmpty.records = [] ∧ pageRecord exPageEmpty = none)
    ∧ (pickBestBlock exPage.records = some exPRec
      ∧ ∃ row, pageRecord exPage = some row
          ∧ row.body = strTake exPRec.block.text 2000) :=
  ⟨⟨by decide, claim_C7_skip_or_best.2.1 [⟨"div", "  ", 0⟩] (by decide)⟩,
   ⟨by decide, claim_C7_skip_or_best.2.2.2.1 [exPRec] (by decide)⟩,
   ⟨by decide, claim_C7_skip_or_best.2.2.2.2.1 exPageEmpty (by decide)⟩,
   ⟨by decide, claim_C7_skip_or_best.2.2.2.2.2 exPage exPRec (by decide)⟩⟩

theorem runAll_invariant (sources : List (List Row)) (acc : List String × List Row)
    (hnd : (acc.2.map fun r => normUrl r.url).Nodup)
    (hsub : ∀ r ∈ acc.2, normUrl r.url ∈ acc.1) :
    (((sources.foldl
        (fun acc items =>
          let p := processSource acc.1 items
          (p.1, acc.2 ++ p.2)) acc).2.map fun r => normUrl r.url).Nodup)
    ∧ ∀ r ∈ (sources.foldl
        (fun acc items =>
          let p := processSource acc.1 items
          (p.1, acc.2 ++ p.2)) acc).2,
        normUrl r.url ∈ (sources.foldl
          (fun acc items =>
            let p := processSource acc.1 items
            (p.1, acc.2 ++ p.2)) acc).1 := by
  induction sources generalizing acc with
  | nil => exact ⟨hnd, hsub⟩
  | cons items rest ih =>
    simp only [List.foldl_cons]
    apply ih
    · rw [List.map_append, List.nodup_append]
      refine ⟨hnd, takeFresh_nodup _ _ _, ?_⟩
      intro x hx hx'
      rcases List.mem_map.mp hx with ⟨r, hr, hre⟩
      rcases List.mem_map.mp hx' with ⟨r', hr', hre'⟩
      exact (takeFresh_not_seen hr') (hre' ▸ hre ▸ hsub r hr)
    · intro r hr
      rcases List.mem_append.mp hr with hr' | hr'
      · exact takeFresh_seen_grows (hsub r hr')
      · exact takeFresh_mem_seen hr'

def digitChar (n : Nat) : Char := Char.ofNat (48 + n)

def mkItem (i : Nat) : Row :=
  ⟨"t", "b", "English",
    ⟨['d', digitChar (i / 10), digitChar (i % 10)]⟩,
    "src",
    ⟨['u', digitChar (i / 10), digitChar (i % 10)]⟩⟩

def ex20 : List Row := (List.range 20).map mkItem

set_option maxRecDepth 32768 in
/-- Claim C4: in one RSS run each source's kept records are ordered by date
descending and number at most 8, every kept record's normalized URL was not
seen earlier in the run, the run-wide row list never repeats a normalized
URL (dedup is global across sources), and on the concrete 20-entry source
the kept records are exactly the 8 with the most recent dates. -/
theorem claim_C4_rss_cap_and_dedup :
    (∀ (seen : List String) (items : List Row),
      (processSource seen items).2.length ≤ 8
      ∧ ((processSource seen items).2).Pairwise (fun a b => dateGe a b = true)
      ∧ (∀ r ∈ (processSource seen items).2, normUrl r.url ∉ seen))
    ∧ (∀ sources : List (List Row),
        ((runAll sources).2.map fun r => normUrl r.url).Nodup)
    ∧ ex20.length = 20
    ∧ (processSource [] ex20).2 = (List.range 8).map (fun j => mkItem (19 - j)) := by
  refine ⟨?_, ?_, by decide, by decide⟩
  · intro seen items
    refine ⟨?_, ?_, ?_⟩
    · have := takeFresh_length (insSortB dateGe items) seen 0
      simpa [processSource] using this
    · exact List.Pairwise.sublist (takeFresh_sublist _ _ _)
        (pairwise_insSortB dateGe dateGe_total dateGe_trans items)
    · intro r hr
      exact takeFresh_not_seen hr
  · intro sources
    exact (runAll_invariant sources ([], []) (by simp) (by simp)).1

/-- Witness for C4's seen-set part, at a one-item source and a seen-set not
containing its URL. -/
theorem claim_C4_witness :
    mkItem 1 ∈ (processSource ["x"] [mkItem 1]).2
    ∧ normUrl (mkItem 1).url ∉ ["x"] :=
  ⟨by decide,
    (claim_C4_rss_cap_and_dedup.1 ["x"] [mkItem 1]).2.2 (mkItem 1) (by decide)⟩

/-- Claim C5: for every feed entry with a non-empty link, the RSS extractor
emits exactly one record whose title is the tag-stripped, capped (180)
entry title, whose body is the tag-stripped capped (800) summary, and whose
date is the parsed published/updated field or the current time when
unparsable; the cap appends the ellipsis exactly when it truncates (so
title and body lengths are at most 181 and 801); an entry with an empty
link produces no record. -/
theorem claim_C5_rss_entry_emission :
    (∀ (strip : String → String) (parseD : String → Option String)
        (nowIso lang name : String) (e : Entry),
      (e.link = "" → emitEntry strip parseD nowIso lang name e = none)
      ∧ (e.link ≠ "" →
          emitEntry strip parseD nowIso lang name e = some
            { title := trimStr (htmlToText strip e.title 180)
              body := trimStr (htmlToText strip (pyOr e.summary e.description) 800)
              language := lang
              date := (parseD (pyOr e.published e.updated)).getD nowIso
              source := name
              url := trimStr e.link }))
    ∧ (∀ (s : String) (n : Nat),
        (s.length ≤ n ∧ capText s n = s)
        ∨ (n < s.length ∧ capText s n = strTake s n ++ "…"
            ∧ (capText s n).length = n + 1))
    ∧ (∀ (strip : String → String) (parseD : String → Option String)
        (nowIso lang name : String) (e : Entry) (rec : Row),
        emitEntry strip parseD nowIso lang name e = some rec →
          rec.title.length ≤ 181 ∧ rec.body.length ≤ 801) := by
  refine ⟨?_, ?_, ?_⟩
  · intro strip parseD nowIso lang name e
    constructor
    · intro h
      unfold emitEntry
      rw [if_pos h]
    · intro h
      unfold emitEntry
      rw [if_neg h]
  · intro s n
    by_cases h : n < s.length
    · right
      refine ⟨h, ?_, ?_⟩
      · unfold capText
        rw [if_pos h]
      · unfold capText
        rw [if_pos h, String.length_append, strTake_length,
          Nat.min_eq_left (Nat.le_of_lt h)]
        rfl
    · left
      refine ⟨Nat.le_of_not_lt h, ?_⟩
      unfold capText
      rw [if_neg h]
  · intro strip parseD nowIso lang name e rec h
    unfold emitEntry at h
    by_cases hl : e.link = ""
    · rw [if_pos hl] at h
      exact absurd h (by simp)
    · rw [if_neg hl] at h
      have hrec := Option.some.inj h
      have hcap : ∀ (html : String) (m : Nat),
          (htmlToText strip html m).length ≤ m + 1 := by
        intro html m
        unfold htmlToText
        by_cases hh : html = ""
        · rw [if_pos hh]
          exact Nat.le_add_left _ _
        · rw [if_neg hh]
          unfold capText
          by_cases hm : m < (strip html).length
          · rw [if_pos hm, String.length_append, strTake_length,
              Nat.min_eq_left (Nat.le_of_lt hm)]
            exact Nat.le_refl _
          · rw [if_neg hm]
            exact Nat.le_succ_of_le (Nat.le_of_not_lt hm)
      constructor
      · have : rec.title = trimStr (htmlToText strip e.title 180) := by
          rw [← hrec]
        rw [this]
        exact Nat.le_trans (trimStr_length_le _) (hcap _ _)
      · have : rec.body = trimStr (htmlToText strip (pyOr e.summary e.description) 800) := by
          rw [← hrec]
        rw [this]
        exact Nat.le_trans (trimStr_length_le _) (hcap _ _)

def exEntryNoLink : Entry := ⟨"T", "", "S", "", "2024-03-01", ""⟩

def exEntryOk : Entry := ⟨"My Title", "  http://ex.com/a  ", "Sum", "", "bad date", ""⟩

/-- Witness for C5, with the identity as the tag-stripping function and an
always-failing date parse: the no-link entry yields nothing, the linked
entry yields the fully determined record, and the concrete cap at 3 of a
5-character string appends the ellipsis. -/
theorem claim_C5_witness :
    (exEntryNoLink.link = ""
      ∧ emitEntry (fun s => s) (fun _ => none) "NOW" "English" "src" exEntryNoLink
          = none)
    ∧ (exEntryOk.link ≠ ""
      ∧ emitEntry (fun s => s) (fun _ => none) "NOW" "English" "src" exEntryOk
          = some
            { title := trimStr (htmlToText (fun s => s) exEntryOk.title 180)
              body := trimStr (htmlToText (fun s => s)
                        (pyOr exEntryOk.summary exEntryOk.description) 800)
              language := "English"
              date := ((fun _ => none : String → Option String)
                        (pyOr exEntryOk.published exEntryOk.updated)).getD "NOW"
              source := "src"
              url := trimStr exEntryOk.link })
    ∧ (("12345" : String).length ≤ 3 ∧ capText "12345" 3 = "12345"
        ∨ (3 < ("12345" : String).length ∧ capText "12345" 3 = strTake "12345" 3 ++ "…"
            ∧ (capText "12345" 3).length = 3 + 1))
    ∧ ((trimStr (htmlToText (fun s => s) exEntryOk.title 180)).length ≤ 181
        ∧ (trimStr (htmlToText (fun s => s)
              (pyOr exEntryOk.summary exEntryOk.description) 800)).length ≤ 801) :=
  ⟨⟨by decide,
      (claim_C5_rss_entry_emission.1 (fun s => s) (fun _ => none) "NOW" "English"
        "src" exEntryNoLink).1 (by decide)⟩,
   ⟨by decide,
      (claim_C5_rss_entry_emission.1 (fun s => s) (fun _ => none) "NOW" "English"
        "src" exEntryOk).2 (by decide)⟩,
   claim_C5_rss_entry_emission.2.1 "12345" 3,
   claim_C5_rss_entry_emission.2.2 (fun s => s) (fun _ => none) "NOW" "English"
      "src" exEntryOk _
      ((claim_C5_rss_entry_emission.1 (fun s => s) (fun _ => none) "NOW" "English"
        "src" exEntryOk).2 (by decide))⟩
